import Mathlib

/-!  Verification of the solidity-upgrade tool (tools/solidity_upgrade).

This file embeds the core of the upgrade assistant: the Change Record
model (UpgradeChange.h), the 0.6.0 detection-rule catalog (Upgrade060.h
and its implementation file), the regex-based keyword-placement utilities
(the util namespace of the suite header), and the convergence driver
(SolidityUpgrade.cpp).  The compiler front end (CompilerStack, AST types,
ContractLevelChecker) is external to the engine and is modelled at its
interface: syntax-tree nodes carry the semantic facts the front end
computes (abstractness, unimplemented members, inherited-function matches,
lvalue annotations), and the driver is parametric in a front-end function
producing a compiler result from the current source snapshots.  -/

namespace SolidityUpgradeTool

/-- Source text, modelled as a list of characters (one per byte of the
UTF-8 narrow-string the tool manipulates; the inputs of interest are
ASCII, where the two coincide). -/
abbrev Text := List Char

/-- Text of a string literal. -/
def txt (s : String) : Text := s.data

/-! ## Word-boundary regex primitives

The source uses std::regex (ECMAScript grammar) with the two patterns
"\b<kw>\b" and "(\b<kw>\b$)", where <kw> is always a visibility keyword
(letters only).  For a pattern that is a literal word between boundary
assertions, regex matching reduces to: the keyword occurs, the character
before it (if any) is not a word character, and the character after it
(if any) is not a word character.  Without the multiline flag, "$"
anchors at the end of the whole input.  regex_replace rewrites every
non-overlapping match, scanning left to right.  All call sites pass
keywords made of word characters; the definitions below assume that. -/

/-- Regex word character: [A-Za-z0-9_]. -/
def isWordChar (c : Char) : Bool := c.isAlphanum || c == '_'

/-- beginsWith a s: a is an initial segment of s. -/
def beginsWith : Text → Text → Bool
  | [], _ => true
  | _ :: _, [] => false
  | a :: as, b :: bs => a == b && beginsWith as bs

/-- nonWordHead s: s is empty or starts with a non-word character (the
closing word boundary of a match ending right before s). -/
def nonWordHead : Text → Bool
  | [] => true
  | c :: _ => !isWordChar c

/-- wordMatchAt kw s: the pattern "\bkw\b" matches at the start of s,
assuming the character just before s (if any) is not a word character. -/
def wordMatchAt (kw s : Text) : Bool :=
  beginsWith kw s && nonWordHead (s.drop kw.length)

/-- replaceGo kw rep skip prev s: the scanning core of regex_replace for
the pattern "\bkw\b": replaces each non-overlapping whole-word occurrence
of kw in s by rep, left to right.  prev records whether the character
just before s in the original subject is a word character (false at the
start of the subject).  On a match the replacement is emitted and the
remaining kw.length - 1 matched characters are consumed through the skip
counter; the scan resumes after the matched word, whose characters are
word characters. -/
def replaceGo (kw rep : Text) : Nat → Bool → Text → Text
  | _, _, [] => []
  | skip + 1, _, _ :: rest => replaceGo kw rep skip true rest
  | 0, prev, c :: rest =>
    if !prev && wordMatchAt kw (c :: rest) then
      rep ++ replaceGo kw rep (kw.length - 1) true rest
    else
      c :: replaceGo kw rep 0 (isWordChar c) rest

/-- replaceWordAll kw rep s: std::regex_replace(s, "\bkw\b", rep). -/
def replaceWordAll (kw rep s : Text) : Text := replaceGo kw rep 0 false s

/-- hasWordMatch kw prev s: the scan of s, entered with boundary state
prev, finds at least one whole-word occurrence of kw. -/
def hasWordMatch (kw : Text) : Bool → Text → Bool
  | _, [] => false
  | prev, c :: rest =>
    (!prev && wordMatchAt kw (c :: rest)) || hasWordMatch kw (isWordChar c) rest

/-- wordSuffixAt kw prev s: some suffix of s equals kw and is entered at
a word boundary; this is std::regex_search(s, "\bkw\b$") - the final "$"
accepts only at the very end of the input, and the trailing "\b" is
automatic there because kw ends in a word character. -/
def wordSuffixAt (kw : Text) : Bool → Text → Bool
  | _, [] => false
  | prev, c :: rest =>
    (!prev && (c :: rest == kw)) || wordSuffixAt kw (isWordChar c) rest

/-- util::isMultiline (suite header): regex_search of "(\b_keyword\b$)"
over the extracted function source.  Despite its name, it is true exactly
when the text ends with the keyword at a word boundary - it does not
inspect line structure. -/
def isMultiline (functionSource keyword : Text) : Bool :=
  wordSuffixAt keyword false functionSource

/-- cleanSeg kw prev pre post: scanning the segment pre (with the text
post following it) from boundary state prev starts no whole-word
occurrence of kw at any position inside pre. -/
def cleanSeg (kw : Text) : Bool → Text → Text → Bool
  | _, [], _ => true
  | prev, c :: rest, post =>
    !(!prev && wordMatchAt kw (c :: rest ++ post)) && cleanSeg kw (isWordChar c) rest post

/-- afterSeg prev pre: the boundary state after scanning pre from state
prev (whether the last character seen is a word character). -/
def afterSeg : Bool → Text → Bool
  | prev, [] => prev
  | _, c :: rest => afterSeg (isWordChar c) rest

/-! ## Locations and Change Records -/

/-- langutil::SourceLocation as the rules use it: a byte range [start,
stop) together with the full text of the snapshot it refers to
(location.source->source() in the C++). -/
structure SrcLoc where
  start : Nat
  stop : Nat
  src : Text
deriving DecidableEq

/-- Text of the byte range of a location:
source().substr(start, end - start). -/
def SrcLoc.text (l : SrcLoc) : Text :=
  (l.src.drop l.start).take (l.stop - l.start)

/-- UpgradeChange::Level (UpgradeChange.h). -/
inductive Level
  | Safe
  | Unsafe
deriving DecidableEq

/-- UpgradeChange (UpgradeChange.h): level, location and replacement
text.  The captured m_source is location.src in this model. -/
structure UpgradeChange where
  level : Level
  location : SrcLoc
  patch : Text
deriving DecidableEq

/-- Modelled from the spec: UpgradeChange::apply is declared in
UpgradeChange.h but implemented in UpgradeChange.cpp, which is not among
the sources; per section 4.1 of the specification, apply "replaces the
byte range [start, end) of sourceText with the replacement text", after
which source() returns the rewritten text. -/
def UpgradeChange.applyToSource (c : UpgradeChange) : Text :=
  c.location.src.take c.location.start ++ c.patch ++ c.location.src.drop c.location.stop

/-! ## Syntax-tree model

The rules read only a few facts from each node, all computed by the
external front end; nodes are modelled as records of exactly those
facts. -/

/-- One entry of the equal_range over
ContractLevelChecker::inheritedFunctions for a given function: whether
FunctionType(f).asCallableFunction(false) exists and has equal parameter
types with the inherited function's type, and whether the inherited
function has virtual semantics. -/
structure SuperFunctionInfo where
  sameParameterTypes : Bool
  virtualSemantics : Bool
deriving DecidableEq

/-- FunctionDefinition, as read by the rules. -/
structure FunctionDef where
  isConstructor : Bool
  overrides : Bool
  virtualSemantics : Bool
  visibility : String
  location : SrcLoc
  inheritedMatches : List SuperFunctionInfo
deriving DecidableEq

/-- ContractDefinition, as read by the rules: whether
unimplementedFunctions is empty, the abstract flag, the interface flag,
the declaration's location and the functions defined in the contract (in
source order). -/
structure ContractDef where
  unimplementedEmpty : Bool
  abstract : Bool
  isInterface : Bool
  location : SrcLoc
  definedFunctions : List FunctionDef
deriving DecidableEq

/-- MemberAccess, as read by the array-length rule: whether the accessed
expression's type is an ArrayType, the member name, and whether the
access is in lvalue position. -/
structure MemberAccessInfo where
  typeIsArray : Bool
  memberName : String
  lValueRequested : Bool
deriving DecidableEq

/-- Left-hand side of an assignment: either a member access or any other
expression (the dynamic_cast in the rule fails on the latter). -/
inductive LhsExpr
  | memberAccess (m : MemberAccessInfo)
  | otherExpr
deriving DecidableEq

/-- Assignment node. -/
structure Assignment where
  lhs : LhsExpr
  location : SrcLoc
deriving DecidableEq

/-- A source unit: contracts in traversal order, and all assignment
nodes of the unit in traversal order. -/
structure SourceUnit where
  contracts : List ContractDef
  assignments : List Assignment
deriving DecidableEq

/-- Sequential visitor accumulation: each rule's endVisit pushes its
records onto the shared m_changes vector in traversal order. -/
def visitAll {α β : Type} (f : α → List β) : List α → List β
  | [] => []
  | x :: xs => f x ++ visitAll f xs

/-- All function definitions of a unit, in traversal order (every
function of the 0.6-era language lives inside a contract). -/
def SourceUnit.allFunctions (su : SourceUnit) : List FunctionDef :=
  visitAll (fun c => c.definedFunctions) su.contracts

/-! ## The 0.6.0 rule catalog -/

/-- Trigger of AbstractContract::endVisit: not fully implemented, not
declared abstract, not an interface. -/
def abstractQualifies (c : ContractDef) : Bool :=
  !c.unimplementedEmpty && !c.abstract && !c.isInterface

/-- The Safe record the abstractness rule emits: the contract's location
with codeAfter = "abstract " + codeBefore. -/
def mkAbstractChange (c : ContractDef) : UpgradeChange :=
  { level := Level.Safe, location := c.location
    patch := txt "abstract " ++ c.location.text }

/-- AbstractContract::endVisit(ContractDefinition). -/
def AbstractContract.endVisitContract (c : ContractDef) : List UpgradeChange :=
  if abstractQualifies c then [mkAbstractChange c] else []

/-- AbstractContract::analyze: visit every contract of the unit. -/
def AbstractContract.analyze (su : SourceUnit) : List UpgradeChange :=
  visitAll AbstractContract.endVisitContract su.contracts

/-- util::placeAfterFunctionHeaderKeyword: extract the location's text,
decide the separator with isMultiline, then regex_replace every
whole-word occurrence of the header keyword by itself followed by the
new keyword (newline-separated when isMultiline, space-separated
otherwise). -/
def placeAfterFunctionHeaderKeyword (location : SrcLoc)
    (headerKeyword keyword : Text) : Text :=
  let codeBefore := location.text
  let toAppend :=
    if isMultiline codeBefore headerKeyword then '\n' :: keyword else ' ' :: keyword
  replaceWordAll headerKeyword (headerKeyword ++ toAppend) codeBefore

/-- The Unsafe record inserting a keyword after the visibility keyword of
a function header. -/
def mkKeywordChange (f : FunctionDef) (keyword : Text) : UpgradeChange :=
  { level := Level.Unsafe, location := f.location
    patch := placeAfterFunctionHeaderKeyword f.location (txt f.visibility) keyword }

/-- Body of the inner loop of OverridingFunction::endVisit for one entry
of the inherited-function equal_range: an "override" record when the
parameter types agree and the function lacks the override annotation,
then a "virtual" record when the inherited function lacks virtual
semantics. -/
def OverridingFunction.visitSuper (f : FunctionDef)
    (sup : SuperFunctionInfo) : List UpgradeChange :=
  (if sup.sameParameterTypes && !f.overrides then
    [mkKeywordChange f (txt "override")] else []) ++
  (if !sup.virtualSemantics then [mkKeywordChange f (txt "virtual")] else [])

/-- Per-function part of OverridingFunction::endVisit: constructors are
skipped; otherwise every equal_range entry is examined in order. -/
def OverridingFunction.visitFunction (f : FunctionDef) : List UpgradeChange :=
  if f.isConstructor then []
  else visitAll (OverridingFunction.visitSuper f) f.inheritedMatches

/-- OverridingFunction::endVisit(ContractDefinition). -/
def OverridingFunction.endVisitContract (c : ContractDef) : List UpgradeChange :=
  visitAll OverridingFunction.visitFunction c.definedFunctions

/-- OverridingFunction::analyze. -/
def OverridingFunction.analyze (su : SourceUnit) : List UpgradeChange :=
  visitAll OverridingFunction.endVisitContract su.contracts

/-- VirtualFunction::endVisit(FunctionDefinition): a "virtual" record for
every function lacking virtual semantics. -/
def VirtualFunction.endVisitFunction (f : FunctionDef) : List UpgradeChange :=
  if !f.virtualSemantics then [mkKeywordChange f (txt "virtual")] else []

/-- VirtualFunction::analyze. -/
def VirtualFunction.analyze (su : SourceUnit) : List UpgradeChange :=
  visitAll VirtualFunction.endVisitFunction su.allFunctions

/-- Trigger of ArrayLength::endVisit: the assignment's left-hand side is
a member access whose expression has array type, whose member name is
"length", and which is in lvalue position. -/
def arrayLengthTrigger (a : Assignment) : Bool :=
  match a.lhs with
  | LhsExpr.memberAccess m =>
      m.typeIsArray && m.memberName == "length" && m.lValueRequested
  | LhsExpr.otherExpr => false

/-- ArrayLength::endVisit(Assignment): an Unsafe record with an empty
replacement at the assignment's location. -/
def ArrayLength.endVisitAssignment (a : Assignment) : List UpgradeChange :=
  if arrayLengthTrigger a then
    [{ level := Level.Unsafe, location := a.location, patch := [] }]
  else []

/-- ArrayLength::analyze: visit every assignment of the unit.  Note that
this rule, although implemented, is not registered in Upgrade060. -/
def ArrayLength.analyze (su : SourceUnit) : List UpgradeChange :=
  visitAll ArrayLength.endVisitAssignment su.assignments

/-- Upgrade060::analyze (Upgrade060.h): runs AbstractContract,
OverridingFunction and VirtualFunction, in this order, over the unit;
the ArrayLength rule is not part of the suite. -/
def Upgrade060.analyze (su : SourceUnit) : List UpgradeChange :=
  AbstractContract.analyze su ++ OverridingFunction.analyze su ++ VirtualFunction.analyze su

/-! ## The convergence driver (SolidityUpgrade.cpp)

The CompilerStack is external; the driver sees its error list, its
pipeline-state value and the per-file syntax trees, and rebuilding the
compiler from the current snapshots is a parameter fe of the loop. -/

/-- Command-line switches relevant to the engine. -/
structure Args where
  acceptSafe : Bool
  acceptUnsafe : Bool
  shortLog : Bool
deriving DecidableEq

/-- The face of the compiler stack the driver reads. -/
structure Compiler where
  errors : List String
  pipelineState : Nat
  ast : String → SourceUnit

/-- CompilerStack::State::AnalysisPerformed of the 0.6-era enum (Empty,
SourcesSet, ParsingPerformed, AnalysisPerformed, CompilationSuccessful);
only the ordering threshold matters to the driver. -/
def analysisPerformedState : Nat := 3

/-- Driver state: the file-path to current-text snapshot map
m_sourceCodes (an ordered map, modelled as a list in key order) and the
compiler stack. -/
structure DriverState where
  sourceCodes : List (String × Text)
  compiler : Compiler

/-- Observable driver actions: applying a Change Record to the in-memory
snapshot, writing a file to disk, and rebuilding the compiler from all
snapshots. -/
inductive DriverEvent
  | applied (file : String) (change : UpgradeChange)
  | wrote (file : String) (content : Text)
  | recompiled (sources : List (String × Text))
deriving DecidableEq

/-- Log lines of the reporting path. -/
inductive LogEvent
  | analyzed (file : String)
  | logged (change : UpgradeChange) (shortened : Bool)
deriving DecidableEq

/-- Whether the driver applies a record of this level, from the
accept-safe / accept-unsafe switches. -/
def accepted (args : Args) (c : UpgradeChange) : Bool :=
  match c.level with
  | Level.Safe => args.acceptSafe
  | Level.Unsafe => args.acceptUnsafe

/-- SolidityUpgrade::analyzeAndUpgrade, reduced to its decision: run the
catalog on the file's tree; if the record list is nonempty and its front
record's level is accepted, that record (and no other) is applied.  The
logging it performs is immaterial here. -/
def analyzeAndUpgrade (args : Args) (cp : Compiler)
    (sc : String × Text) : Option UpgradeChange :=
  match Upgrade060.analyze (cp.ast sc.1) with
  | [] => none
  | ch :: _ => if accepted args ch then some ch else none

/-- The for loop of acceptUpgrade: walk the snapshot map in order and
stop at the first file whose front record is applied. -/
def upgradeScan (args : Args) (cp : Compiler) :
    List (String × Text) → Option (String × UpgradeChange)
  | [] => none
  | sc :: rest =>
    match analyzeAndUpgrade args cp sc with
    | some ch => some (sc.1, ch)
    | none => upgradeScan args cp rest

/-- Replace the snapshot of one file (m_sourceCodes[file] = newText). -/
def updateSource (name : String) (t : Text) :
    List (String × Text) → List (String × Text) :=
  List.map (fun p => if p.1 == name then (p.1, t) else p)

/-- One iteration of the while loop of acceptUpgrade: scan the files; if
a record is applied, update the snapshot, write it through to disk, and
rebuild the compiler from all snapshots; otherwise terminate.  Returns
the new state, the events of the iteration, and the termination flag. -/
def upgradeIter (fe : List (String × Text) → Compiler) (args : Args)
    (st : DriverState) : DriverState × List DriverEvent × Bool :=
  match upgradeScan args st.compiler st.sourceCodes with
  | none => (st, [], true)
  | some (name, ch) =>
    let newText := ch.applyToSource
    let ns := updateSource name newText st.sourceCodes
    (⟨ns, fe ns⟩,
     [DriverEvent.applied name ch, DriverEvent.wrote name newText,
      DriverEvent.recompiled ns],
     false)

/-- SolidityUpgrade::acceptUpgrade: while not terminated and the error
list is nonempty, run one iteration; fuel bounds the unrolling (the C++
loop has no iteration cap). -/
def acceptUpgradeGo (fe : List (String × Text) → Compiler) (args : Args) :
    Nat → DriverState → DriverState × List DriverEvent
  | 0, st => (st, [])
  | fuel + 1, st =>
    if st.compiler.errors.isEmpty then (st, [])
    else
      let r := upgradeIter fe args st
      if r.2.2 then (r.1, r.2.1)
      else
        let next := acceptUpgradeGo fe args fuel r.1
        (next.1, r.2.1 ++ next.2)

/-- SolidityUpgrade::analyzeAndLog: prints the "Analyzing" line, runs the
catalog only when the pipeline reached AnalysisPerformed, and logs each
record found; it applies nothing. -/
def analyzeAndLog (args : Args) (cp : Compiler) (sc : String × Text) : List LogEvent :=
  let changes :=
    if analysisPerformedState ≤ cp.pipelineState then Upgrade060.analyze (cp.ast sc.1)
    else []
  LogEvent.analyzed sc.1 :: changes.map (fun c => LogEvent.logged c args.shortLog)

/-- The dry-run reporting loop of processInput: analyzeAndLog on every
snapshot, in order. -/
def logAll (args : Args) (cp : Compiler) : List (String × Text) → List LogEvent
  | [] => []
  | sc :: rest => analyzeAndLog args cp sc ++ logAll args cp rest

/-- The branch of SolidityUpgrade::processInput after the initial
compilation: acceptUpgrade when a change level is accepted, otherwise the
per-file analyzeAndLog loop. -/
def processChangesPhase (fe : List (String × Text) → Compiler) (args : Args)
    (fuel : Nat) (st : DriverState) :
    DriverState × List DriverEvent × List LogEvent :=
  if args.acceptSafe || args.acceptUnsafe then
    let r := acceptUpgradeGo fe args fuel st
    (r.1, r.2, [])
  else
    (st, [], logAll args st.compiler st.sourceCodes)

/-- Applied-patch events of a trace. -/
def isAppliedEvent : DriverEvent → Bool
  | DriverEvent.applied _ _ => true
  | _ => false

/-- Number of patches applied in a trace. -/
def countApplied (tr : List DriverEvent) : Nat :=
  (tr.filter isAppliedEvent).length

/-- recompiledBetween pending tr: when pending, a recompilation must
occur before the next applied patch; holds of a trace when every two
applied patches are separated by a recompilation. -/
def recompiledBetween : Bool → List DriverEvent → Bool
  | _, [] => true
  | pending, DriverEvent.applied _ _ :: rest => !pending && recompiledBetween true rest
  | _, DriverEvent.recompiled _ :: rest => recompiledBetween false rest
  | pending, DriverEvent.wrote _ _ :: rest => recompiledBetween pending rest

/-- The applied record is the front of the catalog's output for its file,
its level is accepted, and every earlier file of the snapshot map yields
no applied record - the selection acceptUpgrade makes. -/
def firstAcceptedChange (args : Args) (cp : Compiler)
    (srcs : List (String × Text)) (name : String) (ch : UpgradeChange) : Prop :=
  accepted args ch = true
  ∧ (∃ rest, Upgrade060.analyze (cp.ast name) = ch :: rest)
  ∧ ∃ i t, srcs.get? i = some (name, t)
      ∧ analyzeAndUpgrade args cp (name, t) = some ch
      ∧ ∀ j p, j < i → srcs.get? j = some p → analyzeAndUpgrade args cp p = none

/-- analyzed events of the log. -/
def isAnalyzedEvent : LogEvent → Bool
  | LogEvent.analyzed _ => true
  | _ => false

/-! ## tryCompile and the exception boundary (SolidityUpgrade.cpp)

The front end may throw from parse(), analyze() or compile(); the C++
catches dev Exceptions, std::exceptions and everything else.  A phase is
modelled as returning a value or throwing one of those exception
classes. -/

/-- The exception classes distinguished by the catch clauses of
tryCompile: dev::Exception, std::exception (whose what() may be null),
and anything else (caught by the final catch-all). -/
inductive Exn
  | devException (info : String)
  | stdException (what : Option String)
  | unknownException
deriving DecidableEq

/-- Outcome of running a piece of code: a normal return or a thrown
exception. -/
inductive PhaseOutcome (α : Type)
  | ret (a : α)
  | thrown (e : Exn)
deriving DecidableEq

/-- One compilation attempt of the front end: the outcomes of parse(),
analyze() and compile(). -/
structure FrontEndRun where
  parseRun : PhaseOutcome Bool
  analyzeRun : PhaseOutcome Bool
  compileRun : PhaseOutcome Unit
deriving DecidableEq

/-- Console output of tryCompile. -/
inductive CompileLog
  | compileFinished
  | resolvableReported
  | unresolvableReported
  | exceptionReported (text : String)
deriving DecidableEq

/-- The text each catch clause prints. -/
def reportOf : Exn → String
  | Exn.devException info => "Exception during compilation: " ++ info
  | Exn.stdException (some w) => ": " ++ w
  | Exn.stdException none => "."
  | Exn.unknownException => "Unknown exception during compilation."

/-- The try block of tryCompile: parse, then analyze, then compile, with
printErrors on analysis failure and printUnresolvableErrors on parse
failure; any phase may throw, and the throw escapes the block. -/
def tryCompileBody (r : FrontEndRun) : PhaseOutcome (List CompileLog) :=
  match r.parseRun with
  | PhaseOutcome.thrown e => PhaseOutcome.thrown e
  | PhaseOutcome.ret false => PhaseOutcome.ret [CompileLog.unresolvableReported]
  | PhaseOutcome.ret true =>
    match r.analyzeRun with
    | PhaseOutcome.thrown e => PhaseOutcome.thrown e
    | PhaseOutcome.ret false => PhaseOutcome.ret [CompileLog.resolvableReported]
    | PhaseOutcome.ret true =>
      match r.compileRun with
      | PhaseOutcome.thrown e => PhaseOutcome.thrown e
      | PhaseOutcome.ret _ => PhaseOutcome.ret [CompileLog.compileFinished]

/-- SolidityUpgrade::tryCompile: the try block wrapped in the three catch
clauses, each turning the exception into a printed report. -/
def tryCompile (r : FrontEndRun) : PhaseOutcome (List CompileLog) :=
  match tryCompileBody r with
  | PhaseOutcome.ret log => PhaseOutcome.ret log
  | PhaseOutcome.thrown e => PhaseOutcome.ret [CompileLog.exceptionReported (reportOf e)]

/-! ## Spec-side layout predicate

Used only to compare the specification's wording of the layout heuristic
with the implemented one. -/

/-- Modelled from the claim wording: a function header "spans multiple
lines" when its extracted text contains a newline character. -/
def specMultiline (s : Text) : Bool := s.any (fun c => c == '\n')

/-! ## Concrete fixtures for witnesses and counterexamples -/

/-- C2 fixture: an assignment to an array's length member in lvalue
position, alone in a unit. -/
def lenSrc : Text := txt "a.length = 2;"

def lenLoc : SrcLoc := ⟨0, 13, lenSrc⟩

def lenAssign : Assignment :=
  ⟨LhsExpr.memberAccess ⟨true, "length", true⟩, lenLoc⟩

def lenUnit : SourceUnit := ⟨[], [lenAssign]⟩

/-- A unit has an assignment to an array's length member. -/
def hasArrayLengthWrite (su : SourceUnit) : Bool :=
  su.assignments.any arrayLengthTrigger

/-- Number of Unsafe records with empty replacement the shipped catalog
produces. -/
def emptyUnsafeCount (su : SourceUnit) : Nat :=
  ((Upgrade060.analyze su).filter
    (fun c => decide (c.level = Level.Unsafe) && decide (c.patch = ([] : Text)))).length

/-- C3 fixture: a single non-constructor function, matching one inherited
function with equal parameter types and no override annotation. -/
def fnSrc3 : Text := txt "function f() public ;"

def fnLoc3 : SrcLoc := ⟨0, 21, fnSrc3⟩

def fn3 : FunctionDef := ⟨false, false, false, "public", fnLoc3, [⟨true, true⟩]⟩

def ct3 : ContractDef := ⟨true, false, false, fnLoc3, [fn3]⟩

def su3 : SourceUnit := ⟨[ct3], []⟩

/-- A unit has a non-constructor function with the same parameter
signature as an inherited function and no override annotation. -/
def hasOverrideCandidate (su : SourceUnit) : Bool :=
  su.contracts.any fun c => c.definedFunctions.any fun f =>
    !f.isConstructor && !f.overrides &&
      f.inheritedMatches.any (fun s => s.sameParameterTypes)

/-- Number of Unsafe records the shipped catalog produces. -/
def unsafeCount (su : SourceUnit) : Nat :=
  ((Upgrade060.analyze su).filter (fun c => decide (c.level = Level.Unsafe))).length

/-- C5 fixtures: a header spanning two lines whose text does not end with
the visibility keyword, and a single-line header text ending with it. -/
def mlSrc5 : Text := txt "function g(\n) public ;"

def mlLoc5 : SrcLoc := ⟨0, 22, mlSrc5⟩

def elSrc5 : Text := txt "function h() public"

def elLoc5 : SrcLoc := ⟨0, 19, elSrc5⟩

/-- C6 fixture: a contract the abstractness rule rewrites. -/
def ct6 : ContractDef := ⟨false, false, false, ⟨0, 10, txt "contract B"⟩, []⟩

def su6 : SourceUnit := ⟨[ct6], []⟩

/-- C7 fixture: a contract already declared abstract. -/
def ct7 : ContractDef := ⟨false, true, false, ⟨0, 10, txt "contract D"⟩, []⟩

def su7 : SourceUnit := ⟨[ct7], []⟩

/-- C1 fixtures: one file whose catalog output is a single Safe record,
with accept-safe on. -/
def wSrc1 : Text := txt "contract C"

def wLoc1 : SrcLoc := ⟨0, 10, wSrc1⟩

def ct1 : ContractDef := ⟨false, false, false, wLoc1, []⟩

def su1 : SourceUnit := ⟨[ct1], []⟩

def wChange1 : UpgradeChange := mkAbstractChange ct1

def wCompiler1 : Compiler := ⟨["pending error"], 3, fun _ => su1⟩

def wState1 : DriverState := ⟨[("C.sol", wSrc1)], wCompiler1⟩

def wArgs1 : Args := ⟨true, false, false⟩

def wFe1 : List (String × Text) → Compiler :=
  fun _ => ⟨[], 3, fun _ => ⟨[], []⟩⟩

/-- C9 fixtures: two files, dry-run switches. -/
def wCompiler9 : Compiler := ⟨["some error"], 3, fun _ => ⟨[], []⟩⟩

def wState9 : DriverState :=
  ⟨[("A.sol", txt "contract A"), ("B.sol", txt "contract B")], wCompiler9⟩

def wArgs9 : Args := ⟨false, false, false⟩

def wFe9 : List (String × Text) → Compiler := fun _ => wCompiler9

/-- C10 fixtures: empty error list although the catalog still has a
finding for the file. -/
def ct10 : ContractDef := ⟨false, false, false, ⟨0, 10, txt "contract E"⟩, []⟩

def su10 : SourceUnit := ⟨[ct10], []⟩

def wCompiler10 : Compiler := ⟨[], 3, fun _ => su10⟩

def wState10 : DriverState := ⟨[("E.sol", txt "contract E")], wCompiler10⟩

def wArgs10 : Args := ⟨true, true, false⟩

def wFe10 : List (String × Text) → Compiler := fun _ => wCompiler10

/-- C8 fixture: parse throws a dev exception. -/
def rExn : FrontEndRun :=
  ⟨PhaseOutcome.thrown (Exn.devException "boom"), PhaseOutcome.ret true,
   PhaseOutcome.ret ()⟩

end SolidityUpgradeTool
namespace SolidityUpgradeTool

theorem replaceGo_skip (kw rep : Text) :
    ∀ kt post : Text,
      replaceGo kw rep kt.length true (kt ++ post) = replaceGo kw rep 0 true post := by
  intro kt
  induction kt with
  | nil => intro post; rfl
  | cons c kt ih => intro post; simpa [replaceGo] using ih post

theorem replaceGo_no_match (kw rep : Text) :
    ∀ (s : Text) (prev : Bool), hasWordMatch kw prev s = false →
      replaceGo kw rep 0 prev s = s := by
  intro s
  induction s with
  | nil => intro prev _; rfl
  | cons c rest ih =>
    intro prev h
    rw [hasWordMatch] at h
    have h1 := (Bool.or_eq_false_iff.mp h).1
    have h2 := (Bool.or_eq_false_iff.mp h).2
    simp only [replaceGo, h1, Bool.false_eq_true, if_false]
    exact congrArg (c :: ·) (ih _ h2)

theorem replaceGo_through_clean (kw rep post : Text) :
    ∀ (pre : Text) (prev : Bool), cleanSeg kw prev pre post = true →
      replaceGo kw rep 0 prev (pre ++ post)
        = pre ++ replaceGo kw rep 0 (afterSeg prev pre) post := by
  intro pre
  induction pre with
  | nil => intro prev _; rfl
  | cons c rest ih =>
    intro prev h
    rw [cleanSeg, Bool.and_eq_true] at h
    obtain ⟨h1, h2⟩ := h
    have hcond : (!prev && wordMatchAt kw (c :: (rest ++ post))) = false := by
      cases hb : (!prev && wordMatchAt kw (c :: (rest ++ post)))
      · rfl
      · exfalso
        rw [show (c :: (rest ++ post) : Text) = (c :: rest) ++ post by simp] at hb
        rw [hb] at h1
        simp at h1
    have step : replaceGo kw rep 0 prev ((c :: rest) ++ post)
        = c :: replaceGo kw rep 0 (isWordChar c) (rest ++ post) := by
      simp [replaceGo, List.append_eq, hcond]
    rw [step, ih _ h2]
    simp [afterSeg]

theorem replaceGo_match_head (kw rep rest : Text)
    (h : wordMatchAt kw (kw ++ rest) = true) (hk : kw ≠ []) :
    replaceGo kw rep 0 false (kw ++ rest) = rep ++ replaceGo kw rep 0 true rest := by
  cases kw with
  | nil => exact absurd rfl hk
  | cons k0 kt =>
    rw [List.cons_append] at h
    have step : replaceGo (k0 :: kt) rep 0 false ((k0 :: kt) ++ rest)
        = rep ++ replaceGo (k0 :: kt) rep ((k0 :: kt : Text).length - 1) true (kt ++ rest) := by
      simp [replaceGo, List.append_eq, h]
    rw [step, show (k0 :: kt : Text).length - 1 = kt.length by simp]
    exact congrArg (rep ++ ·) (replaceGo_skip (k0 :: kt) rep kt rest)

theorem replace_single (kw rep pre post : Text)
    (h1 : cleanSeg kw false pre (kw ++ post) = true)
    (h2 : afterSeg false pre = false)
    (h3 : wordMatchAt kw (kw ++ post) = true)
    (h4 : hasWordMatch kw true post = false)
    (hk : kw ≠ []) :
    replaceGo kw rep 0 false (pre ++ (kw ++ post)) = pre ++ rep ++ post := by
  rw [replaceGo_through_clean kw rep (kw ++ post) pre false h1, h2]
  rw [replaceGo_match_head kw rep post h3 hk]
  rw [replaceGo_no_match kw rep post true h4]
  simp [List.append_assoc]

theorem placeAfter_sameLine (loc : SrcLoc) (kw ins pre post : Text)
    (ht : loc.text = pre ++ kw ++ post)
    (hm : isMultiline loc.text kw = false)
    (h1 : cleanSeg kw false pre (kw ++ post) = true)
    (h2 : afterSeg false pre = false)
    (h3 : wordMatchAt kw (kw ++ post) = true)
    (h4 : hasWordMatch kw true post = false)
    (hk : kw ≠ []) :
    placeAfterFunctionHeaderKeyword loc kw ins = pre ++ kw ++ (' ' :: ins) ++ post := by
  rw [ht, List.append_assoc] at hm
  calc placeAfterFunctionHeaderKeyword loc kw ins
      = replaceGo kw (kw ++ ' ' :: ins) 0 false (pre ++ (kw ++ post)) := by
        simp [placeAfterFunctionHeaderKeyword, replaceWordAll, hm, ht]
    _ = pre ++ (kw ++ ' ' :: ins) ++ post :=
        replace_single kw (kw ++ ' ' :: ins) pre post h1 h2 h3 h4 hk
    _ = pre ++ kw ++ (' ' :: ins) ++ post := by simp [List.append_assoc]

theorem placeAfter_newLine (loc : SrcLoc) (kw ins pre : Text)
    (ht : loc.text = pre ++ kw)
    (hm : isMultiline loc.text kw = true)
    (h1 : cleanSeg kw false pre kw = true)
    (h2 : afterSeg false pre = false)
    (h3 : wordMatchAt kw kw = true)
    (hk : kw ≠ []) :
    placeAfterFunctionHeaderKeyword loc kw ins = pre ++ kw ++ ('\n' :: ins) := by
  rw [ht] at hm
  have h1' : cleanSeg kw false pre (kw ++ []) = true := by simpa using h1
  have h3' : wordMatchAt kw (kw ++ []) = true := by simpa using h3
  calc placeAfterFunctionHeaderKeyword loc kw ins
      = replaceGo kw (kw ++ '\n' :: ins) 0 false (pre ++ (kw ++ [])) := by
        simp [placeAfterFunctionHeaderKeyword, replaceWordAll, hm, ht]
    _ = pre ++ (kw ++ '\n' :: ins) ++ [] :=
        replace_single kw (kw ++ '\n' :: ins) pre [] h1' h2 h3' rfl hk
    _ = pre ++ kw ++ ('\n' :: ins) := by simp [List.append_assoc]

end SolidityUpgradeTool
namespace SolidityUpgradeTool

-- rule-level lemmas
theorem mem_visitAll {α β : Type} (f : α → List β) :
    ∀ (l : List α) (b : β), b ∈ visitAll f l ↔ ∃ a ∈ l, b ∈ f a := by
  intro l
  induction l with
  | nil => intro b; simp [visitAll]
  | cons x xs ih => intro b; simp [visitAll, ih]

theorem abstract_visitAll_eq :
    ∀ l : List ContractDef,
      visitAll AbstractContract.endVisitContract l
        = (l.filter abstractQualifies).map mkAbstractChange := by
  intro l
  induction l with
  | nil => rfl
  | cons c cs ih =>
    by_cases h : abstractQualifies c = true
    · simp [visitAll, AbstractContract.endVisitContract, List.filter_cons, h, ih]
    · simp only [Bool.not_eq_true] at h
      simp [visitAll, AbstractContract.endVisitContract, List.filter_cons, h, ih]

theorem arrayLength_visitAll_eq :
    ∀ l : List Assignment,
      visitAll ArrayLength.endVisitAssignment l
        = (l.filter arrayLengthTrigger).map
            (fun a => { level := Level.Unsafe, location := a.location, patch := [] }) := by
  intro l
  induction l with
  | nil => rfl
  | cons a as ih =>
    by_cases h : arrayLengthTrigger a = true
    · simp [visitAll, ArrayLength.endVisitAssignment, List.filter_cons, h, ih]
    · simp only [Bool.not_eq_true] at h
      simp [visitAll, ArrayLength.endVisitAssignment, List.filter_cons, h, ih]

theorem overriding_level (su : SourceUnit) (ch : UpgradeChange)
    (h : ch ∈ OverridingFunction.analyze su) : ch.level = Level.Unsafe := by
  rw [OverridingFunction.analyze, mem_visitAll] at h
  obtain ⟨c, _, hc⟩ := h
  rw [OverridingFunction.endVisitContract, mem_visitAll] at hc
  obtain ⟨f, _, hf⟩ := hc
  rw [OverridingFunction.visitFunction] at hf
  by_cases hctor : f.isConstructor = true
  · simp [hctor] at hf
  · simp only [Bool.not_eq_true] at hctor
    rw [if_neg (by simp [hctor]), mem_visitAll] at hf
    obtain ⟨sup, _, hs⟩ := hf
    rw [OverridingFunction.visitSuper, List.mem_append] at hs
    rcases hs with hs | hs
    · by_cases hb : (sup.sameParameterTypes && !f.overrides) = true
      · rw [if_pos hb, List.mem_singleton] at hs
        subst hs; rfl
      · rw [if_neg hb] at hs; exact absurd hs (List.not_mem_nil _)
    · by_cases hb : (!sup.virtualSemantics) = true
      · rw [if_pos hb, List.mem_singleton] at hs
        subst hs; rfl
      · rw [if_neg hb] at hs; exact absurd hs (List.not_mem_nil _)

theorem virtual_level (su : SourceUnit) (ch : UpgradeChange)
    (h : ch ∈ VirtualFunction.analyze su) : ch.level = Level.Unsafe := by
  rw [VirtualFunction.analyze, mem_visitAll] at h
  obtain ⟨f, _, hf⟩ := h
  rw [VirtualFunction.endVisitFunction] at hf
  by_cases hb : (!f.virtualSemantics) = true
  · rw [if_pos hb, List.mem_singleton] at hf
    subst hf; rfl
  · rw [if_neg hb] at hf; exact absurd hf (List.not_mem_nil _)

theorem safe_filter_eq (su : SourceUnit) :
    (Upgrade060.analyze su).filter (fun c => decide (c.level = Level.Safe))
      = (su.contracts.filter abstractQualifies).map mkAbstractChange := by
  rw [Upgrade060.analyze]
  rw [List.filter_append, List.filter_append]
  have hA : (AbstractContract.analyze su).filter (fun c => decide (c.level = Level.Safe))
      = AbstractContract.analyze su := by
    rw [List.filter_eq_self]
    intro a ha
    rw [AbstractContract.analyze, abstract_visitAll_eq, List.mem_map] at ha
    obtain ⟨c, _, hc⟩ := ha
    subst hc
    simp [mkAbstractChange]
  have hO : (OverridingFunction.analyze su).filter (fun c => decide (c.level = Level.Safe))
      = [] := by
    rw [List.filter_eq_nil_iff]
    intro a ha
    simp [overriding_level su a ha]
  have hV : (VirtualFunction.analyze su).filter (fun c => decide (c.level = Level.Safe))
      = [] := by
    rw [List.filter_eq_nil_iff]
    intro a ha
    simp [virtual_level su a ha]
  rw [hA, hO, hV, AbstractContract.analyze, abstract_visitAll_eq]
  simp

end SolidityUpgradeTool
namespace SolidityUpgradeTool

theorem analyzeAndUpgrade_some (args : Args) (cp : Compiler) (sc : String × Text)
    (ch : UpgradeChange) (h : analyzeAndUpgrade args cp sc = some ch) :
    accepted args ch = true ∧ ∃ rest, Upgrade060.analyze (cp.ast sc.1) = ch :: rest := by
  cases hA : Upgrade060.analyze (cp.ast sc.1) with
  | nil =>
    simp only [analyzeAndUpgrade, hA] at h
    exact absurd h (by simp)
  | cons c rest =>
    simp only [analyzeAndUpgrade, hA] at h
    by_cases hacc : accepted args c = true
    · rw [if_pos hacc] at h
      obtain rfl : c = ch := Option.some.inj h
      exact ⟨hacc, rest, rfl⟩
    · rw [if_neg hacc] at h; exact absurd h (by simp)

theorem upgradeScan_first (args : Args) (cp : Compiler) :
    ∀ (srcs : List (String × Text)) (name : String) (ch : UpgradeChange),
      upgradeScan args cp srcs = some (name, ch) →
      firstAcceptedChange args cp srcs name ch := by
  intro srcs
  induction srcs with
  | nil => intro name ch h; exact absurd h (by simp [upgradeScan])
  | cons sc rest ih =>
    intro name ch h
    rw [upgradeScan] at h
    cases hA : analyzeAndUpgrade args cp sc with
    | some ch0 =>
      rw [hA] at h
      have hp : (sc.1, ch0) = (name, ch) := Option.some.inj h
      obtain ⟨rfl, rfl⟩ : sc.1 = name ∧ ch0 = ch :=
        ⟨congrArg Prod.fst hp, congrArg Prod.snd hp⟩
      obtain ⟨hacc, hcat⟩ := analyzeAndUpgrade_some args cp sc ch0 hA
      refine ⟨hacc, hcat, 0, sc.2, ?_, ?_, ?_⟩
      · rfl
      · exact hA
      · intro j p hj
        exact absurd hj (Nat.not_lt_zero j)
    | none =>
      rw [hA] at h
      obtain ⟨hacc, hcat, i, t, hget, hsome, hbefore⟩ := ih name ch h
      refine ⟨hacc, hcat, i + 1, t, ?_, hsome, ?_⟩
      · simpa using hget
      · intro j p hj hg
        cases j with
        | zero =>
          have hps : sc = p := by simpa using hg
          rw [← hps]
          exact hA
        | succ j' =>
          exact hbefore j' p (by omega) (by simpa using hg)

theorem upgradeIter_none (fe : List (String × Text) → Compiler) (args : Args)
    (st : DriverState)
    (h : upgradeScan args st.compiler st.sourceCodes = none) :
    upgradeIter fe args st = (st, [], true) := by
  simp [upgradeIter, h]

theorem upgradeIter_some (fe : List (String × Text) → Compiler) (args : Args)
    (st : DriverState) (name : String) (ch : UpgradeChange)
    (h : upgradeScan args st.compiler st.sourceCodes = some (name, ch)) :
    upgradeIter fe args st =
      (⟨updateSource name ch.applyToSource st.sourceCodes,
        fe (updateSource name ch.applyToSource st.sourceCodes)⟩,
       [DriverEvent.applied name ch, DriverEvent.wrote name ch.applyToSource,
        DriverEvent.recompiled (updateSource name ch.applyToSource st.sourceCodes)],
       false) := by
  simp [upgradeIter, h]

theorem upgradeIter_count (fe : List (String × Text) → Compiler) (args : Args)
    (st : DriverState) : countApplied (upgradeIter fe args st).2.1 ≤ 1 := by
  cases hscan : upgradeScan args st.compiler st.sourceCodes with
  | none => rw [upgradeIter_none fe args st hscan]; simp [countApplied]
  | some nc =>
    obtain ⟨name, ch⟩ := nc
    rw [upgradeIter_some fe args st name ch hscan]
    simp [countApplied, isAppliedEvent, List.filter]

theorem acceptUpgradeGo_trace_sep (fe : List (String × Text) → Compiler) (args : Args) :
    ∀ (fuel : Nat) (st : DriverState),
      recompiledBetween false (acceptUpgradeGo fe args fuel st).2 = true := by
  intro fuel
  induction fuel with
  | zero => intro st; rfl
  | succ n ih =>
    intro st
    rw [acceptUpgradeGo]
    by_cases he : st.compiler.errors.isEmpty = true
    · rw [if_pos he]; rfl
    · rw [if_neg he]
      cases hscan : upgradeScan args st.compiler st.sourceCodes with
      | none =>
        rw [upgradeIter_none fe args st hscan]; rfl
      | some nc =>
        obtain ⟨name, ch⟩ := nc
        rw [upgradeIter_some fe args st name ch hscan]
        simp [recompiledBetween, ih]

theorem acceptUpgradeGo_no_errors (fe : List (String × Text) → Compiler) (args : Args)
    (fuel : Nat) (st : DriverState) (h : st.compiler.errors = []) :
    acceptUpgradeGo fe args fuel st = (st, []) := by
  cases fuel with
  | zero => rfl
  | succ n => rw [acceptUpgradeGo, if_pos (by simp [h])]

theorem logAll_filter_analyzed (args : Args) (cp : Compiler) :
    ∀ srcs : List (String × Text),
      (logAll args cp srcs).filter isAnalyzedEvent
        = srcs.map (fun sc => LogEvent.analyzed sc.1) := by
  intro srcs
  induction srcs with
  | nil => rfl
  | cons sc rest ih =>
    rw [logAll, List.filter_append, ih]
    have hone : (analyzeAndLog args cp sc).filter isAnalyzedEvent
        = [LogEvent.analyzed sc.1] := by
      rw [analyzeAndLog]
      simp only [List.filter_cons]
      rw [if_pos (by rfl)]
      have : (List.map (fun c => LogEvent.logged c args.shortLog)
          (if analysisPerformedState ≤ cp.pipelineState
           then Upgrade060.analyze (cp.ast sc.1) else [])).filter isAnalyzedEvent = [] := by
        rw [List.filter_eq_nil_iff]
        intro x hx
        rw [List.mem_map] at hx
        obtain ⟨c, _, rfl⟩ := hx
        simp [isAnalyzedEvent]
      rw [this]
    rw [hone]
    rfl

theorem catalog_core (su : SourceUnit) (c : ContractDef) (f : FunctionDef)
    (sup : SuperFunctionInfo)
    (h1 : su.contracts = [c])
    (h2 : abstractQualifies c = false)
    (h3 : c.definedFunctions = [f])
    (h4 : f.isConstructor = false)
    (h5 : f.inheritedMatches = [sup])
    (h6 : sup.sameParameterTypes = true)
    (h7 : f.overrides = false) :
    Upgrade060.analyze su =
      mkKeywordChange f (txt "override") ::
        ((if sup.virtualSemantics then [] else [mkKeywordChange f (txt "virtual")]) ++
         (if f.virtualSemantics then [] else [mkKeywordChange f (txt "virtual")])) := by
  cases hsv : sup.virtualSemantics <;> cases hfv : f.virtualSemantics <;>
    simp [Upgrade060.analyze, AbstractContract.analyze, OverridingFunction.analyze,
      OverridingFunction.endVisitContract, OverridingFunction.visitFunction,
      OverridingFunction.visitSuper, VirtualFunction.analyze, SourceUnit.allFunctions,
      VirtualFunction.endVisitFunction, AbstractContract.endVisitContract, visitAll,
      h1, h2, h3, h4, h5, h6, h7, hsv, hfv]

end SolidityUpgradeTool
namespace SolidityUpgradeTool

/-- C1: in auto-apply mode each iteration of the convergence loop applies at
most one Change Record; when one is applied it is the front record of the
catalog's output for the first file whose front record is accepted, the
snapshot map is updated and written through, and the compiler is rebuilt from
all updated snapshots; over the whole loop no two applied patches ever occur
without a recompilation in between. -/
theorem upgrade_loop_single_patch_per_iteration
    (fe : List (String × Text) → Compiler) (args : Args) (st : DriverState) (fuel : Nat) :
    countApplied (upgradeIter fe args st).2.1 ≤ 1
    ∧ recompiledBetween false (acceptUpgradeGo fe args fuel st).2 = true
    ∧ ∀ name ch, upgradeScan args st.compiler st.sourceCodes = some (name, ch) →
        (upgradeIter fe args st).2.1 =
          [DriverEvent.applied name ch, DriverEvent.wrote name ch.applyToSource,
           DriverEvent.recompiled (updateSource name ch.applyToSource st.sourceCodes)]
        ∧ (upgradeIter fe args st).1.sourceCodes
            = updateSource name ch.applyToSource st.sourceCodes
        ∧ (upgradeIter fe args st).1.compiler
            = fe (updateSource name ch.applyToSource st.sourceCodes)
        ∧ firstAcceptedChange args st.compiler st.sourceCodes name ch := by
  refine ⟨upgradeIter_count fe args st, acceptUpgradeGo_trace_sep fe args fuel st, ?_⟩
  intro name ch h
  rw [upgradeIter_some fe args st name ch h]
  exact ⟨rfl, rfl, rfl, upgradeScan_first args st.compiler st.sourceCodes name ch h⟩

/-- C1 witness: a concrete iteration applying the single Safe record of one
file and recompiling from the updated snapshots. -/
theorem upgrade_loop_single_patch_per_iteration_witness :
    countApplied (upgradeIter wFe1 wArgs1 wState1).2.1 ≤ 1
    ∧ (upgradeIter wFe1 wArgs1 wState1).2.1 =
        [DriverEvent.applied "C.sol" wChange1,
         DriverEvent.wrote "C.sol" wChange1.applyToSource,
         DriverEvent.recompiled (updateSource "C.sol" wChange1.applyToSource wState1.sourceCodes)]
    ∧ firstAcceptedChange wArgs1 wState1.compiler wState1.sourceCodes "C.sol" wChange1 := by
  have h := upgrade_loop_single_patch_per_iteration wFe1 wArgs1 wState1 2
  have h2 := h.2.2 "C.sol" wChange1 (by decide)
  exact ⟨h.1, h2.1, h2.2.2.2⟩

/-- C2 counterexample: a unit containing an assignment to an array's length
member in lvalue position for which the shipped catalog produces no Unsafe
record with empty replacement at all - the ArrayLength rule is not registered
in Upgrade060 - refuting the claimed count of exactly one. -/
theorem shipped_catalog_misses_array_length :
    hasArrayLengthWrite lenUnit = true ∧ emptyUnsafeCount lenUnit ≠ 1 := by decide

/-- C2 amended: the ArrayLength rule itself produces exactly one Unsafe
Change Record with empty replacement per matching assignment, at the
assignment's location, and nothing else; the shipped Upgrade060 catalog does
not run this rule. -/
theorem array_length_rule_exact_records (su : SourceUnit) :
    ArrayLength.analyze su
      = (su.assignments.filter arrayLengthTrigger).map
          (fun a => { level := Level.Unsafe, location := a.location, patch := [] }) :=
  arrayLength_visitAll_eq su.assignments

/-- C3 counterexample: a unit with one non-constructor function matching one
inherited function and lacking the override annotation, for which the shipped
catalog produces two Unsafe records (an override one and a virtual one), not
exactly one. -/
theorem override_record_count_refuted :
    hasOverrideCandidate su3 = true ∧ unsafeCount su3 ≠ 1 := by decide

/-- C3 amended: for a unit of one contract (not triggering the abstractness
rule) with a single non-constructor function matching a single inherited
function and lacking the override annotation, the shipped catalog emits
exactly one Unsafe record inserting "override" - first in catalog order -
possibly followed by virtual-annotation records (one if the inherited
function lacks virtual semantics, one if the function itself does); under a
single-occurrence, not-at-end-of-text keyword layout the replacement inserts
" override" once, on the same line right after the visibility keyword. -/
theorem override_insertion_characterized
    (su : SourceUnit) (c : ContractDef) (f : FunctionDef) (sup : SuperFunctionInfo)
    (pre post : Text)
    (h1 : su.contracts = [c])
    (h2 : abstractQualifies c = false)
    (h3 : c.definedFunctions = [f])
    (h4 : f.isConstructor = false)
    (h5 : f.inheritedMatches = [sup])
    (h6 : sup.sameParameterTypes = true)
    (h7 : f.overrides = false)
    (ht : f.location.text = pre ++ txt f.visibility ++ post)
    (hm : isMultiline f.location.text (txt f.visibility) = false)
    (hp1 : cleanSeg (txt f.visibility) false pre (txt f.visibility ++ post) = true)
    (hp2 : afterSeg false pre = false)
    (hp3 : wordMatchAt (txt f.visibility) (txt f.visibility ++ post) = true)
    (hp4 : hasWordMatch (txt f.visibility) true post = false)
    (hk : txt f.visibility ≠ []) :
    Upgrade060.analyze su =
      { level := Level.Unsafe, location := f.location,
        patch := pre ++ txt f.visibility ++ (' ' :: txt "override") ++ post } ::
      ((if sup.virtualSemantics then []
        else [{ level := Level.Unsafe, location := f.location,
                patch := pre ++ txt f.visibility ++ (' ' :: txt "virtual") ++ post }]) ++
       (if f.virtualSemantics then []
        else [{ level := Level.Unsafe, location := f.location,
                patch := pre ++ txt f.visibility ++ (' ' :: txt "virtual") ++ post }])) := by
  have hov := placeAfter_sameLine f.location (txt f.visibility) (txt "override")
    pre post ht hm hp1 hp2 hp3 hp4 hk
  have hvi := placeAfter_sameLine f.location (txt f.visibility) (txt "virtual")
    pre post ht hm hp1 hp2 hp3 hp4 hk
  rw [catalog_core su c f sup h1 h2 h3 h4 h5 h6 h7]
  simp only [mkKeywordChange, hov, hvi]

/-- C3 amended witness: the characterization evaluated on a concrete unit. -/
theorem override_insertion_characterized_witness :
    Upgrade060.analyze su3 =
      [{ level := Level.Unsafe, location := fnLoc3,
         patch := txt "function f() public override ;" },
       { level := Level.Unsafe, location := fnLoc3,
         patch := txt "function f() public virtual ;" }] := by
  have h := override_insertion_characterized su3 ct3 fn3 ⟨true, true⟩
    (txt "function f() ") (txt " ;") rfl (by decide) rfl (by decide) rfl (by decide)
    (by decide) (by decide) (by decide) (by decide) (by decide) (by decide) (by decide)
    (by decide)
  exact h.trans (by decide)

/-- C4: the Safe records of the shipped catalog are exactly one per contract
that has an unimplemented member, is not abstract and is not an interface,
located at that contract's declaration, with replacement "abstract " prefixed
to the declaration's text. -/
theorem safe_records_characterized (su : SourceUnit) :
    (Upgrade060.analyze su).filter (fun c => decide (c.level = Level.Safe))
      = (su.contracts.filter abstractQualifies).map mkAbstractChange :=
  safe_filter_eq su

/-- C5 counterexample: a header whose extracted text spans two lines but does
not end with the visibility keyword; the code inserts the keyword on the same
line with a space, not on a new line as the claim states. -/
theorem layout_heuristic_not_line_based :
    specMultiline mlLoc5.text = true
    ∧ placeAfterFunctionHeaderKeyword mlLoc5 (txt "public") (txt "override")
        = txt "function g(\n) public override ;"
    ∧ placeAfterFunctionHeaderKeyword mlLoc5 (txt "public") (txt "override")
        ≠ txt "function g(\n) public\noverride ;" := by decide

/-- C5 amended: the inserted keyword goes on a new line exactly when the
extracted text ends with the visibility keyword at a word boundary (the
heuristic anchors at end of text, not at line structure); otherwise it goes
on the same line after a single space. -/
theorem insertion_layout_end_of_text (loc : SrcLoc) (kw ins pre post : Text) :
    (loc.text = pre ++ kw ++ post →
     isMultiline loc.text kw = false →
     cleanSeg kw false pre (kw ++ post) = true →
     afterSeg false pre = false →
     wordMatchAt kw (kw ++ post) = true →
     hasWordMatch kw true post = false →
     kw ≠ [] →
     placeAfterFunctionHeaderKeyword loc kw ins = pre ++ kw ++ (' ' :: ins) ++ post)
    ∧ (loc.text = pre ++ kw →
       isMultiline loc.text kw = true →
       cleanSeg kw false pre kw = true →
       afterSeg false pre = false →
       wordMatchAt kw kw = true →
       kw ≠ [] →
       placeAfterFunctionHeaderKeyword loc kw ins = pre ++ kw ++ ('\n' :: ins)) := by
  constructor
  · intro ht hm hp1 hp2 hp3 hp4 hk
    exact placeAfter_sameLine loc kw ins pre post ht hm hp1 hp2 hp3 hp4 hk
  · intro ht hm hp1 hp2 hp3 hk
    exact placeAfter_newLine loc kw ins pre ht hm hp1 hp2 hp3 hk

/-- C5 amended witness: both layout cases evaluated on concrete headers. -/
theorem insertion_layout_end_of_text_witness :
    placeAfterFunctionHeaderKeyword mlLoc5 (txt "public") (txt "override")
      = txt "function g(\n) public override ;"
    ∧ placeAfterFunctionHeaderKeyword elLoc5 (txt "public") (txt "override")
      = txt "function h() public\noverride" := by
  constructor
  · have h := (insertion_layout_end_of_text mlLoc5 (txt "public") (txt "override")
      (txt "function g(\n) ") (txt " ;")).1 (by decide) (by decide) (by decide)
      (by decide) (by decide) (by decide) (by decide)
    exact h.trans (by decide)
  · have h := (insertion_layout_end_of_text elLoc5 (txt "public") (txt "override")
      (txt "function h() ") []).2 (by decide) (by decide) (by decide) (by decide)
      (by decide) (by decide)
    exact h.trans (by decide)

/-- C6: every Safe record the shipped catalog emits is addition-only - its
replacement contains the original text of its location as a contiguous
substring. -/
theorem safe_changes_addition_only (su : SourceUnit) (ch : UpgradeChange)
    (hmem : ch ∈ Upgrade060.analyze su) (hsafe : ch.level = Level.Safe) :
    ∃ a b, ch.patch = a ++ ch.location.text ++ b := by
  rw [Upgrade060.analyze, List.mem_append, List.mem_append] at hmem
  rcases hmem with (hmem | hmem) | hmem
  · rw [AbstractContract.analyze, abstract_visitAll_eq, List.mem_map] at hmem
    obtain ⟨c, _, rfl⟩ := hmem
    exact ⟨txt "abstract ", [], by simp [mkAbstractChange]⟩
  · have := overriding_level su ch hmem
    rw [this] at hsafe
    exact absurd hsafe (by decide)
  · have := virtual_level su ch hmem
    rw [this] at hsafe
    exact absurd hsafe (by decide)

/-- C6 witness: the Safe record of a concrete contract contains the
declaration's text as a substring. -/
theorem safe_changes_addition_only_witness :
    ∃ a b, (mkAbstractChange ct6).patch = a ++ (mkAbstractChange ct6).location.text ++ b :=
  safe_changes_addition_only su6 (mkAbstractChange ct6) (by decide) rfl

/-- C7: the Abstractness rule emits nothing for a contract already declared
abstract, an interface, or a fully implemented contract, and on a unit whose
contracts are all in one of those states the shipped catalog emits no Safe
record at all, so a second Safe-only pass finds nothing. -/
theorem safe_pass_idempotent_on_upgraded (su : SourceUnit) (c : ContractDef)
    (hall : ∀ d ∈ su.contracts,
      d.abstract = true ∨ d.isInterface = true ∨ d.unimplementedEmpty = true)
    (hc : c.abstract = true ∨ c.isInterface = true ∨ c.unimplementedEmpty = true) :
    AbstractContract.endVisitContract c = []
    ∧ (Upgrade060.analyze su).filter (fun ch => decide (ch.level = Level.Safe)) = [] := by
  constructor
  · have hq : abstractQualifies c = false := by
      rcases hc with h | h | h <;> simp [abstractQualifies, h]
    simp [AbstractContract.endVisitContract, hq]
  · rw [safe_filter_eq]
    have hnil : su.contracts.filter abstractQualifies = [] := by
      rw [List.filter_eq_nil_iff]
      intro d hd
      rcases hall d hd with h | h | h <;> simp [abstractQualifies, h]
    rw [hnil]
    rfl

/-- C7 witness: a unit whose only contract is already abstract. -/
theorem safe_pass_idempotent_on_upgraded_witness :
    AbstractContract.endVisitContract ct7 = []
    ∧ (Upgrade060.analyze su7).filter (fun ch => decide (ch.level = Level.Safe)) = [] :=
  safe_pass_idempotent_on_upgraded su7 ct7 (by decide) (by decide)

/-- C8: tryCompile always returns normally - for every behavior of the front
end's parse, analyze and compile phases, including any thrown exception, the
result is a normal return, and a thrown exception is rendered as a printed
report. -/
theorem try_compile_never_propagates (r : FrontEndRun) :
    (∃ log, tryCompile r = PhaseOutcome.ret log)
    ∧ ∀ e, tryCompileBody r = PhaseOutcome.thrown e →
        tryCompile r = PhaseOutcome.ret [CompileLog.exceptionReported (reportOf e)] := by
  constructor
  · cases hb : tryCompileBody r with
    | ret log => exact ⟨log, by simp only [tryCompile, hb]⟩
    | thrown e =>
      exact ⟨[CompileLog.exceptionReported (reportOf e)], by simp only [tryCompile, hb]⟩
  · intro e he
    simp only [tryCompile, he]

/-- C8 witness: a run whose parse phase throws a dev exception is reported
and returned normally. -/
theorem try_compile_never_propagates_witness :
    tryCompile rExn
      = PhaseOutcome.ret [CompileLog.exceptionReported (reportOf (Exn.devException "boom"))] :=
  (try_compile_never_propagates rExn).2 (Exn.devException "boom") rfl

/-- C9: with neither accept switch set, the processing branch performs
exactly one analysis pass per snapshot (one analyzed event per file, in
order), applies no Change Record, writes no file, and leaves the driver
state - in particular the snapshot map - unchanged. -/
theorem dry_run_frame_effects (fe : List (String × Text) → Compiler) (args : Args)
    (fuel : Nat) (st : DriverState)
    (hs : args.acceptSafe = false) (hu : args.acceptUnsafe = false) :
    (processChangesPhase fe args fuel st).1 = st
    ∧ (processChangesPhase fe args fuel st).2.1 = []
    ∧ (processChangesPhase fe args fuel st).2.2.filter isAnalyzedEvent
        = st.sourceCodes.map (fun sc => LogEvent.analyzed sc.1) := by
  have hcond : (args.acceptSafe || args.acceptUnsafe) = false := by simp [hs, hu]
  have hred : processChangesPhase fe args fuel st
      = (st, [], logAll args st.compiler st.sourceCodes) := by
    simp [processChangesPhase, hcond]
  rw [hred]
  exact ⟨rfl, rfl, logAll_filter_analyzed args st.compiler st.sourceCodes⟩

/-- C9 witness: a concrete dry run over two files. -/
theorem dry_run_frame_effects_witness :
    (processChangesPhase wFe9 wArgs9 5 wState9).1 = wState9
    ∧ (processChangesPhase wFe9 wArgs9 5 wState9).2.1 = []
    ∧ (processChangesPhase wFe9 wArgs9 5 wState9).2.2.filter isAnalyzedEvent
        = [LogEvent.analyzed "A.sol", LogEvent.analyzed "B.sol"] := by
  have h := dry_run_frame_effects wFe9 wArgs9 5 wState9 rfl rfl
  exact ⟨h.1, h.2.1, h.2.2.trans (by decide)⟩

/-- C10: when the compiler's error list is empty on entry, acceptUpgrade
terminates immediately - no file is analyzed, no Change Record is applied and
the state is unchanged - regardless of what the catalog would find. -/
theorem loop_exits_when_no_errors (fe : List (String × Text) → Compiler) (args : Args)
    (fuel : Nat) (st : DriverState) (h : st.compiler.errors = []) :
    acceptUpgradeGo fe args fuel st = (st, []) :=
  acceptUpgradeGo_no_errors fe args fuel st h

/-- C10 witness: empty error list with a unit the catalog still flags. -/
theorem loop_exits_when_no_errors_witness :
    Upgrade060.analyze (wState10.compiler.ast "E.sol") ≠ []
    ∧ acceptUpgradeGo wFe10 wArgs10 7 wState10 = (wState10, []) :=
  ⟨by decide, loop_exits_when_no_errors wFe10 wArgs10 7 wState10 rfl⟩

end SolidityUpgradeTool
